import Mathlib

/-!
Verification of the ouisync repository's blob layer, database commit
ordering, peer exchange, handshake, metadata and message dispatch, as a
shallow embedding in Lean 4.

The embedding follows the Rust sources:
* `src/blob.rs` — the `Blob` handle (create/open/read/write/seek/flush),
  its `Cursor`/`OpenBlock`/`Buffer` machinery and block accounting;
* `lib/src/blob/core.rs` — `Core::block_count`;
* `lib/src/db/mod.rs` — `Pool::begin_write` / `WriteTransaction::commit_and_then`;
* `lib/src/network/peer_exchange.rs` — `ContactSet::iter_for` and the
  announce sampling in `PexAnnouncer::run`;
* `lib/src/network/mod.rs` — `perform_handshake` / `Inner::on_protocol_mismatch`;
* `lib/src/repository/metadata.rs` — `get_secret_blob` / `get_write_key`;
* `lib/src/network/message_dispatcher.rs` — the `Send` future of `MultiSink`;
* `lib/src/directory/parent_context.rs` — `ParentContext::fork`.

Modelling conventions: machine integers (`u64`, `u32`, `usize`) are `Nat`
with explicit clamping/`%` where the source saturates or truncates; byte
buffers are total functions `Nat → Nat` over positions `< BLOCK_SIZE`;
fallible operations return `Except`.  The AEAD layer is not under `src/`
(the `crypto` module); blocks are therefore modelled at the decrypted
level: the store maps a block number within the blob to its decrypted
content, which is faithful because `write_block` encrypts and `read_block`
decrypts the same byte range with the same key and deterministic per-block
nonce (spec §4.A: in-place AEAD encrypt/decrypt are mutually inverse).
Block ids (`BlockId::random()`, `BlockVersion::random()`) only rename the
block in the underlying kv store; the index lookup (`child_tag`) is
deterministic in `(head_name, block number)`, so ids are elided and the
store is keyed by block number directly.
-/

namespace Ouisync

/-- `BLOCK_SIZE` from `src/block.rs` (4096 bytes, spec §3). -/
def BLOCK_SIZE : Nat := 4096

/-- Modelled from the spec: the nonce prefix stored in a blob's header is
24 bytes (spec §3 "the first block of a blob stores the 24-byte
nonce-prefix in its plaintext header"); `NonceSequence` lives in the
crypto module which is not under `src/`. -/
def NONCE_PREFIX_SIZE : Nat := 24

/-- `Blob::header_size`: nonce prefix length plus `size_of::<u64>()`. -/
def HEADER_SIZE : Nat := NONCE_PREFIX_SIZE + 8

/-- `u32::MAX`. -/
def U32_MAX : Nat := 2 ^ 32 - 1

/-- `u64` modulus. -/
def U64_MOD : Nat := 2 ^ 64

/-- A block buffer: decrypted content of one block, as a total function
from byte position to byte value (meaningful for positions `< BLOCK_SIZE`;
`Buffer::new()` is the all-zero function). -/
def Buf : Type := Nat → Nat

/-- `Buffer::new()` — a zeroed `BLOCK_SIZE` buffer. -/
def Buf.zero : Buf := fun _ => 0

/-- Write `src` into `b` starting at position `start` (positions outside
`[start, start + src.length)` are unchanged). -/
def Buf.writeAt (b : Buf) (start : Nat) (src : List Nat) : Buf :=
  fun i => if start ≤ i ∧ i < start + src.length then src.getD (i - start) 0 else b i

/-- `Cursor` from `src/blob.rs`: a block buffer with an internal position. -/
structure Cursor where
  buffer : Buf
  pos : Nat

/-- `Cursor::read`: copy `min (BLOCK_SIZE - pos) dstLen` bytes out of the
buffer, advancing `pos`.  Returns the bytes read (the prefix of the
caller's buffer that was filled) and the updated cursor. -/
def Cursor.read (c : Cursor) (dstLen : Nat) : List Nat × Cursor :=
  let n := min (BLOCK_SIZE - c.pos) dstLen
  ((List.range n).map (fun i => c.buffer (c.pos + i)), { c with pos := c.pos + n })

/-- `Cursor::write`: copy `min (BLOCK_SIZE - pos) src.length` bytes from
`src` into the buffer, advancing `pos`.  Returns the number of bytes
written and the updated cursor. -/
def Cursor.write (c : Cursor) (src : List Nat) : Nat × Cursor :=
  let n := min (BLOCK_SIZE - c.pos) src.length
  (n, { buffer := c.buffer.writeAt c.pos (src.take n), pos := c.pos + n })

/-- Little-endian byte encoding of a `u64`, as used by `Cursor::write_u64`
(`u64::to_le_bytes`). -/
def leBytes (v : Nat) : List Nat :=
  (List.range 8).map (fun k => v / 256 ^ k % 256)

/-- `Cursor::write_u64`. -/
def Cursor.writeU64 (c : Cursor) (v : Nat) : Cursor :=
  (c.write (leBytes v)).2

/-- Little-endian decoding of 8 bytes starting at position `start` of a
buffer (`u64::from_le_bytes` in `Cursor::read_u64`). -/
def Buf.decodeU64 (b : Buf) (start : Nat) : Nat :=
  (List.range 8).foldr (fun k acc => acc + b (start + k) * 256 ^ k) 0

/-- `Cursor::read_u64`: decode 8 bytes at `pos`, advancing `pos`. -/
def Cursor.readU64 (c : Cursor) : Nat × Cursor :=
  (c.buffer.decodeU64 c.pos, { c with pos := c.pos + 8 })

/-- `OpenBlock`: the one cached block of a blob.  The `id` and `head_name`
fields are elided (see the header comment); `number` is the block's index
within the blob. -/
structure OpenBlock where
  number : Nat
  content : Cursor
  dirty : Bool

/-- The blob's on-store state: decrypted content of each committed block,
keyed by block number within the blob (composition of the index lookup by
`child_tag`, `block::read` and AEAD decryption). -/
def Store : Type := Nat → Option Buf

/-- The store with no blocks of this blob committed (a freshly created
blob's random `head_name` has no blocks under it). -/
def Store.empty : Store := fun _ => none

/-- Update the store at one block number. -/
def Store.set (s : Store) (n : Nat) (b : Buf) : Store :=
  fun k => if k = n then some b else s k

/-- Errors of the blob layer that the model can produce
(`Error::BlockNotFound` via `index::get` / `block::read`). -/
inductive BlobError where
  | blockNotFound
deriving DecidableEq, Repr

/-- `Blob` from `src/blob.rs`: the store view, the cached current block,
the logical length and its dirty flag.  (`context` and `nonce_sequence`
carry the pool and crypto material and are elided per the header
comment.) -/
structure Blob where
  store : Store
  currentBlock : OpenBlock
  len : Nat
  lenDirty : Bool

namespace Blob

/-- `Blob::block_count`: `1 + (len + header_size - 1) / BLOCK_SIZE`,
saturated to `u32::MAX` by `try_into().unwrap_or(u32::MAX)`.  The same
formula appears as `Core::block_count` in `lib/src/blob/core.rs`. -/
def blockCount (b : Blob) : Nat :=
  min (1 + (b.len + HEADER_SIZE - 1) / BLOCK_SIZE) U32_MAX

/-- `Blob::seek_position`: `number * BLOCK_SIZE + pos - header_size`
(`u64` arithmetic; the invariant proved below keeps the subtraction from
underflowing). -/
def seekPosition (b : Blob) : Nat :=
  b.currentBlock.number * BLOCK_SIZE + b.currentBlock.content.pos - HEADER_SIZE

/-- `Blob::create`: fresh head block holding the nonce prefix (24 random
bytes whose value is never re-read as content — modelled as zeros) and a
zero length field; the block starts dirty. -/
def create (store : Store) : Blob :=
  let c : Cursor := { buffer := Buf.zero, pos := 0 }
  let c := (c.write (List.replicate NONCE_PREFIX_SIZE 0)).2
  let c := c.writeU64 0
  { store
    currentBlock := { number := 0, content := c, dirty := true }
    len := 0
    lenDirty := false }

/-- `Blob::open`: load block 0, skip the nonce prefix, read the length
field. -/
def openBlob (store : Store) : Except BlobError Blob :=
  match store 0 with
  | none => .error .blockNotFound
  | some f =>
    let c : Cursor := { buffer := f, pos := NONCE_PREFIX_SIZE }
    let (len, c) := c.readU64
    .ok { store
          currentBlock := { number := 0, content := c, dirty := false }
          len := len % U64_MOD
          lenDirty := false }

/-- `Blob::write_len`: write the current blob length into the header of
the head block — in place when the head block is the current block,
through the store otherwise. -/
def writeLen (b : Blob) : Except BlobError Blob :=
  if b.lenDirty = false then .ok b
  else if b.currentBlock.number = 0 then
    let oldPos := b.currentBlock.content.pos
    let c := { b.currentBlock.content with pos := NONCE_PREFIX_SIZE }
    let c := c.writeU64 b.len
    let c := { c with pos := oldPos }
    .ok { b with
          currentBlock := { b.currentBlock with content := c, dirty := true }
          lenDirty := false }
  else
    match b.store 0 with
    | none => .error .blockNotFound
    | some f =>
      let c : Cursor := { buffer := f, pos := NONCE_PREFIX_SIZE }
      let c := c.writeU64 b.len
      .ok { b with store := b.store.set 0 c.buffer, lenDirty := false }

/-- `Blob::flush_in`: no-op when the current block is clean; otherwise
write the length header and commit the current block's content under its
block number (the fresh `BlockVersion::random()` only renames the block
and is elided). -/
def flushIn (b : Blob) : Except BlobError Blob :=
  if b.currentBlock.dirty = false then .ok b
  else
    match b.writeLen with
    | .error e => .error e
    | .ok b =>
      .ok { b with
            store := b.store.set b.currentBlock.number b.currentBlock.content.buffer
            currentBlock := { b.currentBlock with dirty := false } }

/-- `Blob::flush` (the surrounding transaction is elided — the model is
sequential and transactions always commit). -/
def flush (b : Blob) : Except BlobError Blob := b.flushIn

/-- `Blob::replace_current_block`: flush the old current block, then make
`content` the current block `number`, skipping the header when it is the
head block. -/
def replaceCurrentBlock (b : Blob) (number : Nat) (content : Buf) :
    Except BlobError Blob :=
  match b.flushIn with
  | .error e => .error e
  | .ok b =>
    let pos := if number = 0 then HEADER_SIZE else 0
    .ok { b with
          currentBlock :=
            { number, content := { buffer := content, pos }, dirty := false } }

/-- `Blob::read`: fill up to `want` bytes from the blob, advancing the
cursor, loading successive blocks as needed; returns the bytes actually
read.  (`remaining` clamps at the blob length; the per-iteration
transactions are elided.) -/
def readLoop (b : Blob) (want : Nat) : Except BlobError (List Nat × Blob) :=
  let remaining := b.len - b.seekPosition
  let len1 := min want remaining
  let bytes := (b.currentBlock.content.read len1).1
  let c' := (b.currentBlock.content.read len1).2
  let b1 : Blob := { b with currentBlock := { b.currentBlock with content := c' } }
  let want' := want - bytes.length
  if hw : want' = 0 then .ok (bytes, b1)
  else
    let number := b1.currentBlock.number + 1
    if hn : b1.blockCount ≤ number then .ok (bytes, b1)
    else
      match b1.store number with
      | none => .error .blockNotFound
      | some f =>
        match hr : b1.replaceCurrentBlock number f with
        | .error e => .error e
        | .ok b2 =>
          match b2.readLoop want' with
          | .error e => .error e
          | .ok (rest, b3) => .ok (bytes ++ rest, b3)
termination_by b.blockCount - b.currentBlock.number
decreasing_by
  have hwlen : ∀ (x y : Blob), x.writeLen = .ok y →
      y.len = x.len ∧ y.currentBlock.number = x.currentBlock.number := by
    intro x y hx
    unfold Blob.writeLen at hx
    by_cases h1 : x.lenDirty = false
    · rw [if_pos h1] at hx
      cases hx
      exact ⟨rfl, rfl⟩
    · rw [if_neg h1] at hx
      by_cases h2 : x.currentBlock.number = 0
      · rw [if_pos h2] at hx
        cases hx
        exact ⟨rfl, rfl⟩
      · rw [if_neg h2] at hx
        cases hs : x.store 0 with
        | none => rw [hs] at hx; cases hx
        | some f0 =>
          rw [hs] at hx
          cases hx
          exact ⟨rfl, rfl⟩
  have hflen : ∀ (x y : Blob), x.flushIn = .ok y → y.len = x.len := by
    intro x y hx
    unfold Blob.flushIn at hx
    by_cases h1 : x.currentBlock.dirty = false
    · rw [if_pos h1] at hx
      cases hx
      rfl
    · rw [if_neg h1] at hx
      cases hw2 : x.writeLen with
      | error e => rw [hw2] at hx; cases hx
      | ok bw =>
        rw [hw2] at hx
        cases hx
        exact (hwlen x bw hw2).1
  have hrlen : ∀ (x : Blob) (m : Nat) (g : Buf) (y : Blob),
      x.replaceCurrentBlock m g = .ok y →
      y.len = x.len ∧ y.currentBlock.number = m ∧
        y.currentBlock.content.pos = (if m = 0 then HEADER_SIZE else 0) := by
    intro x m g y hx
    unfold Blob.replaceCurrentBlock at hx
    cases hfx : x.flushIn with
    | error e => rw [hfx] at hx; cases hx
    | ok xf =>
      rw [hfx] at hx
      cases hx
      refine ⟨?_, rfl, rfl⟩
      exact hflen x xf hfx
  obtain ⟨hlen, hnum, -⟩ := hrlen _ _ _ _ hr
  have hlen' : b2.len = b.len := hlen
  have hnum' : b2.currentBlock.number = b.currentBlock.number + 1 := hnum
  have hn' : ¬(min (1 + (b.len + HEADER_SIZE - 1) / BLOCK_SIZE) U32_MAX
      ≤ b.currentBlock.number + 1) := hn
  simp only [Blob.blockCount]
  rw [hlen', hnum']
  omega

/-- `Blob::write`: copy `src` into the blob at the cursor, extending the
length when writing past it, moving to the next block (loaded from the
store when it exists, fresh otherwise) until `src` is exhausted. -/
def writeLoop (b : Blob) (src : List Nat) : Except BlobError Blob :=
  let n := (b.currentBlock.content.write src).1
  let c' := (b.currentBlock.content.write src).2
  let dirty := if 0 < n then true else b.currentBlock.dirty
  let b1 : Blob :=
    { b with currentBlock := { b.currentBlock with content := c', dirty } }
  -- `if self.seek_position() > self.len`; the comparison is written in
  -- the equivalent addition form (`a < b - c ↔ a + c < b` on ℕ, which is
  -- Mathlib's `Nat.lt_sub_iff_add_lt`) because the truncated-subtraction
  -- form makes Lean's equation-lemma generation for this recursive
  -- definition diverge.
  let b2 : Blob :=
    if b1.len + HEADER_SIZE
        < b1.currentBlock.number * BLOCK_SIZE + b1.currentBlock.content.pos then
      { b1 with len := b1.seekPosition, lenDirty := true }
    else b1
  let src' := src.drop n
  if hz : src' = [] then .ok b2
  else
    let number := b2.currentBlock.number + 1
    let content : Option Buf :=
      if number < b2.blockCount then b2.store number else some Buf.zero
    match content with
    | none => .error .blockNotFound
    | some f =>
      match hr : b2.replaceCurrentBlock number f with
      | .error e => .error e
      | .ok b3 => b3.writeLoop src'
termination_by 2 * src.length
  + (if b.currentBlock.content.pos < BLOCK_SIZE then 0 else 1)
decreasing_by
  have hwlen : ∀ (x y : Blob), x.writeLen = .ok y →
      y.len = x.len ∧ y.currentBlock.number = x.currentBlock.number := by
    intro x y hx
    unfold Blob.writeLen at hx
    by_cases h1 : x.lenDirty = false
    · rw [if_pos h1] at hx
      cases hx
      exact ⟨rfl, rfl⟩
    · rw [if_neg h1] at hx
      by_cases h2 : x.currentBlock.number = 0
      · rw [if_pos h2] at hx
        cases hx
        exact ⟨rfl, rfl⟩
      · rw [if_neg h2] at hx
        cases hs : x.store 0 with
        | none => rw [hs] at hx; cases hx
        | some f0 =>
          rw [hs] at hx
          cases hx
          exact ⟨rfl, rfl⟩
  have hflen : ∀ (x y : Blob), x.flushIn = .ok y → y.len = x.len := by
    intro x y hx
    unfold Blob.flushIn at hx
    by_cases h1 : x.currentBlock.dirty = false
    · rw [if_pos h1] at hx
      cases hx
      rfl
    · rw [if_neg h1] at hx
      cases hw2 : x.writeLen with
      | error e => rw [hw2] at hx; cases hx
      | ok bw =>
        rw [hw2] at hx
        cases hx
        exact (hwlen x bw hw2).1
  have hrlen : ∀ (x : Blob) (m : Nat) (g : Buf) (y : Blob),
      x.replaceCurrentBlock m g = .ok y →
      y.len = x.len ∧ y.currentBlock.number = m ∧
        y.currentBlock.content.pos = (if m = 0 then HEADER_SIZE else 0) := by
    intro x m g y hx
    unfold Blob.replaceCurrentBlock at hx
    cases hfx : x.flushIn with
    | error e => rw [hfx] at hx; cases hx
    | ok xf =>
      rw [hfx] at hx
      cases hx
      refine ⟨?_, rfl, rfl⟩
      exact hflen x xf hfx
  obtain ⟨-, hnum, hpos⟩ := hrlen _ _ _ _ hr
  have hn0 : (b.currentBlock.content.write src).1
      = min (BLOCK_SIZE - b.currentBlock.content.pos) src.length := rfl
  have hsrc : (b.currentBlock.content.write src).1 < src.length := by
    by_contra hge
    exact hz (List.drop_eq_nil_of_le (by omega))
  have hnum1 : number = b2.currentBlock.number + 1 := rfl
  have hnum0 : (number = 0) = False := by simp [hnum1]
  rw [hpos]
  simp only [hnum0, if_false, List.length_drop]
  have hBpos : (0:Nat) < BLOCK_SIZE := by norm_num [BLOCK_SIZE]
  rw [if_pos hBpos]
  by_cases h0 : (b.currentBlock.content.write src).1 = 0
  · have hge : BLOCK_SIZE ≤ b.currentBlock.content.pos := by omega
    rw [if_neg (by omega)]
    omega
  · rcases Nat.lt_or_ge b.currentBlock.content.pos BLOCK_SIZE with hx | hx
    · rw [if_pos hx]
      omega
    · rw [if_neg (by omega)]
      omega

/-- `SeekFrom` (std). -/
inductive SeekFrom where
  | start (n : Nat)
  | fromEnd (n : Int)
  | current (n : Int)

/-- `Blob::seek`: clamp the requested offset to `[0, len]`, then position
the cursor on the corresponding block/offset, loading the block when it is
not the current one.  Returns the new seek position. -/
def seek (b : Blob) (pos : SeekFrom) : Except BlobError (Nat × Blob) :=
  let offset : Nat :=
    match pos with
    | .start n => min n b.len
    | .fromEnd n => if 0 ≤ n then b.len else b.len - (-n).toNat
    | .current n =>
      if 0 ≤ n then min (b.seekPosition + n.toNat) b.len
      else b.seekPosition - (-n).toNat
  let actual := offset + HEADER_SIZE
  let blockNumber := actual / BLOCK_SIZE
  let blockOffset := actual % BLOCK_SIZE
  if blockNumber = b.currentBlock.number then
    .ok (offset,
      { b with currentBlock :=
          { b.currentBlock with
            content := { b.currentBlock.content with pos := blockOffset } } })
  else
    match b.store blockNumber with
    | none => .error .blockNotFound
    | some f =>
      match b.replaceCurrentBlock blockNumber f with
      | .error e => .error e
      | .ok b2 =>
        .ok (offset,
          { b2 with currentBlock :=
              { b2.currentBlock with
                content := { b2.currentBlock.content with pos := blockOffset } } })

end Blob

/-- `Core::block_count` from `lib/src/blob/core.rs` as a function of the
length (identical to `Blob::block_count` above). -/
def Core.blockCount (len : Nat) : Nat :=
  min (1 + (len + HEADER_SIZE - 1) / BLOCK_SIZE) U32_MAX

/-- The spec's block-count formula: `ceil((L + H) / BLOCK_SIZE)` with
`H = 32` (spec §3 and invariant I4), written with the standard
`ceil(a/b) = (a + b - 1) / b` on naturals. -/
def specBlockCount (len : Nat) : Nat :=
  (len + HEADER_SIZE + (BLOCK_SIZE - 1)) / BLOCK_SIZE

/-!
### Fork (`ParentContext::fork`, `lib/src/directory/parent_context.rs`)

`ParentContext::fork` decides success through
`content::check_insert` (from `lib/src/directory/content.rs`, whose file
is not under `src/`).  Modelled from the spec: §4.E "`fork(dst_branch)` …
Idempotent: if an equal entry already exists in the destination, succeed"
and §4.F "two-phase logic refreshes and re-checks, treating 'same content'
(identical VV and root) as success and distinct content as `EntryExists`".
The model is sequential, so the lock acquisition, the directory refresh
and the repeated `check_insert` calls of `parent_context.rs` collapse into
a single check, and the destination directory is represented by its entry
under the forked name.
-/

/-- A version vector, as an association list `writer_id → counter`
(missing writers are implicitly `0`, spec §3). -/
abbrev VersionVector : Type := List (Nat × Nat)

/-- Look up a writer's counter in a version vector. -/
def VersionVector.get (v : VersionVector) (w : Nat) : Nat :=
  ((v.find? (fun p => p.1 = w)).map (fun p => p.2)).getD 0

/-- Pointwise order on version vectors (spec §3: `a ≤ b` iff
`∀w: a[w] ≤ b[w]`). -/
def VersionVector.le (a b : VersionVector) : Prop :=
  ∀ p ∈ a, p.2 ≤ b.get p.1

instance (a b : VersionVector) : Decidable (a.le b) := by
  unfold VersionVector.le
  infer_instance

/-- Version-vector equality as functions (equal on every writer). -/
def VersionVector.eqv (a b : VersionVector) : Prop := a.le b ∧ b.le a

instance (a b : VersionVector) : Decidable (a.eqv b) := by
  unfold VersionVector.eqv
  infer_instance

/-- Well-formedness of a stored version vector (the implementation keeps
it as a `BTreeMap`, so writer keys are unique). -/
def VersionVector.wf (v : VersionVector) : Prop := (v.map Prod.fst).Nodup

instance (v : VersionVector) : Decidable v.wf := by
  unfold VersionVector.wf
  infer_instance

/-- A directory entry's data as far as fork is concerned: the blob root
id and the entry's version vector (`EntryData` fields used by
`check_insert`). -/
structure EntryData where
  blobId : Nat
  versionVector : VersionVector

/-- "Equal entry": same blob id and same version vector. -/
def EntryData.same (a b : EntryData) : Prop :=
  a.blobId = b.blobId ∧ a.versionVector.eqv b.versionVector

instance (a b : EntryData) : Decidable (a.same b) := by
  unfold EntryData.same
  infer_instance

/-- Result of `content::check_insert`. -/
inductive CheckInsert where
  | ok
  | sameExists
  | differentExists

/-- Modelled from the spec: `content::check_insert` (the file
`lib/src/directory/content.rs` is not under `src/`).  Spec §4.E/§4.F: an
absent destination entry admits the insert, an equal entry (identical VV
and blob root) is reported as already present ("same"), any other
existing entry is distinct content. -/
def checkInsert (dst : Option EntryData) (new : EntryData) : CheckInsert :=
  match dst with
  | none => .ok
  | some old => if old.same new then .sameExists else .differentExists

/-- Fork errors surfaced by `ParentContext::fork` in the sequential
model. -/
inductive ForkError where
  | entryExists
deriving DecidableEq

/-- `ParentContext::fork`, collapsed to its effect on the destination
directory's entry for the forked name (sequential model, see the section
comment): `EntryExists::Same` short-circuits to success leaving the
destination unchanged, `EntryExists::Different` fails with `EntryExists`,
otherwise the source entry is forked and inserted. -/
def forkEntry (src : EntryData) (dst : Option EntryData) :
    Except ForkError (Option EntryData) :=
  match checkInsert dst src with
  | .sameExists => .ok dst
  | .differentExists => .error .entryExists
  | .ok => .ok (some src)

/-!
### Commit ordering (`lib/src/db/mod.rs`)

`Pool::begin_write` acquires the pool's `write_semaphore` (one permit)
before opening a write transaction; `WriteTransaction::commit_and_then`
runs `commit` and the closure `f` on a spawned task that holds the permit
(`let _permit = self.commit_inner().await?;` keeps it alive until `f`
returns), so the permit is released only after `f` completes.  The
spawned task is detached from the caller, so cancelling the caller does
not interrupt it (tokio `task::spawn` contract).  The model is a small
interleaving system over these synchronisation events.
-/

/-- Program counter of the spawned `commit_and_then` task: about to
commit, commit succeeded and `f` is running, or `f` returned and the
permit was dropped. -/
inductive CommitterPc where
  | atCommit
  | atClosure
  | done
deriving DecidableEq

/-- Program counter of a task that subsequently calls
`Pool::begin_write`: still awaiting the semaphore, or holding the permit
with the write transaction open. -/
inductive WriterPc where
  | waiting
  | acquired
deriving DecidableEq

/-- State of the commit-ordering model: the two tasks, the number of free
permits of `write_semaphore` (capacity 1), and whether the caller
awaiting `commit_and_then` has been cancelled. -/
structure DbState where
  committer : CommitterPc
  writer : WriterPc
  permitsFree : Nat
  callerCancelled : Bool

/-- Initial state: the committer's transaction holds the single permit
(acquired by its own `begin_write`), the next writer is waiting. -/
def DbState.init : DbState :=
  { committer := .atCommit, writer := .waiting, permitsFree := 0
    callerCancelled := false }

/-- Interleaving steps of the commit-ordering model.  The committer's
steps never depend on `callerCancelled` — the spawned task keeps running
after the caller is cancelled. -/
inductive DbStep : DbState → DbState → Prop where
  | commit (s : DbState) :
      s.committer = .atCommit →
      DbStep s { s with committer := .atClosure }
  | closureDone (s : DbState) :
      s.committer = .atClosure →
      DbStep s { s with committer := .done, permitsFree := s.permitsFree + 1 }
  | acquire (s : DbState) :
      s.writer = .waiting → 0 < s.permitsFree →
      DbStep s { s with writer := .acquired, permitsFree := s.permitsFree - 1 }
  | cancelCaller (s : DbState) :
      DbStep s { s with callerCancelled := true }

/-- States reachable from the initial state. -/
inductive DbReachable : DbState → Prop where
  | init : DbReachable DbState.init
  | step {s t : DbState} : DbReachable s → DbStep s t → DbReachable t

/-!
### Peer exchange (`lib/src/network/peer_exchange.rs`)

`ConnectionDirection` and the live-connection info are defined in
`lib/src/network/connection.rs`, not under `src/`; per the spec a live
connection has a peer address and a direction, and an address is TCP or
QUIC with a global or non-global IP.  `ip::is_global` is abstracted as
the `ipGlobal` flag of an address.  The `HashMap` of
`ContactSet` is modelled as an association list.
-/

/-- Direction of an established connection. -/
inductive ConnectionDirection where
  | incoming
  | outgoing
deriving DecidableEq, Repr

/-- A peer address as far as `ContactSet::iter_for` inspects it:
transport (`PeerAddr::is_tcp`), globality of the IP (`ip::is_global`) and
the rest of the socket address (here just the port, to tell addresses
apart). -/
structure PeerAddrM where
  isTcp : Bool
  ipGlobal : Bool
  port : Nat
deriving DecidableEq, Repr

/-- One entry of a `LiveConnectionInfoSet`: address and direction. -/
structure ConnInfo where
  addr : PeerAddrM
  dir : ConnectionDirection
deriving DecidableEq, Repr

/-- `ContactSet`: runtime id of each linked peer with its live
connection infos. -/
abbrev ContactSet : Type := List (Nat × List ConnInfo)

/-- `ContactSet::iter_for`: a recipient is "local" when at least one of
its own live addresses is non-global; a local recipient is sent every
contact, a global one only global contacts; and TCP addresses are kept
only when their connection direction is `Incoming` (the code's comment
claims the opposite intent: "Filter out incoming TCP contacts because
they can't be used to establish outgoing connection"). -/
def ContactSet.iterFor (set : ContactSet) (recipientId : Nat) : List PeerAddrM :=
  let isLocal :=
    match set.find? (fun p => p.1 = recipientId) with
    | some p => p.2.any (fun i => !i.addr.ipGlobal)
    | none => false
  (set.filter (fun p => p.1 ≠ recipientId)).flatMap
    (fun p =>
      ((p.2.filter (fun i => isLocal || i.addr.ipGlobal)).filter
          (fun i => !i.addr.isTcp || i.dir == .incoming)).map
        (fun i => i.addr))

/-- `MAX_CONTACTS_PER_MESSAGE` (25). -/
def MAX_CONTACTS_PER_MESSAGE : Nat := 25

/-- The size of the announced sample in `PexAnnouncer::run`: all
contacts when at most 25 survive the recent-filter, otherwise a random
subset of exactly 25 (`IteratorRandom::choose_multiple` returns
`MAX_CONTACTS_PER_MESSAGE` elements when the iterator is longer). -/
def announcedCount (contacts : Nat) : Nat :=
  if contacts ≤ MAX_CONTACTS_PER_MESSAGE then contacts
  else MAX_CONTACTS_PER_MESSAGE

/-!
### Handshake and protocol mismatch (`lib/src/network/mod.rs`)

`MAGIC` and `VERSION` live in `lib/src/network/protocol.rs`, not under
`src/`; the spec (§6) fixes only that the magic is a 4-byte constant and
the version a number, so both are parameters of the model.
-/

/-- Handshake failures (`HandshakeError`; the `Fatal(io::Error)` case is
stream I/O and out of scope of a sequential model of the version
check). -/
inductive HandshakeError where
  | protocolVersionMismatch (theirVersion : Nat)
  | badMagic
deriving DecidableEq, Repr

/-- `perform_handshake`, as a function of the bytes read from the peer:
compare the magic, then the version, then exchange runtime ids (the
ed25519 possession proof is crypto and elided; a successful exchange
returns the peer's runtime id). -/
def performHandshake (magic : List Nat) (thisVersion : Nat)
    (thatMagic : List Nat) (thatVersion : Nat) (thatRuntimeId : Nat) :
    Except HandshakeError Nat :=
  if thatMagic ≠ magic then .error .badMagic
  else if thisVersion < thatVersion then
    .error (.protocolVersionMismatch thatVersion)
  else .ok thatRuntimeId

/-- `Inner::on_protocol_mismatch`: given the current
`highest_seen_protocol_version`, a newly seen higher version updates it
and fires the `on_protocol_mismatch_tx` event; otherwise nothing is
sent.  Returns (new highest, event fired?). -/
def onProtocolMismatch (highest : Nat) (theirVersion : Nat) : Nat × Bool :=
  if highest < theirVersion then (theirVersion, true) else (highest, false)

/-- One observed mismatch: thread `on_protocol_mismatch` through the
state (current highest, versions emitted so far). -/
def mismatchStep (a : Nat × List Nat) (v : Nat) : Nat × List Nat :=
  let r := onProtocolMismatch a.1 v
  (r.1, if r.2 then a.2 ++ [v] else a.2)

/-- Versions for which a protocol-mismatch event is emitted when the
versions in `vs` are observed in order, starting from
`highest_seen_protocol_version = ourVersion` (its initial value in
`Inner`). -/
def mismatchEmits (ourVersion : Nat) (vs : List Nat) : List Nat :=
  (vs.foldl mismatchStep (ourVersion, [])).2

/-!
### Metadata secrets (`lib/src/repository/metadata.rs`)

`cipher::SecretKey::decrypt_no_aead` is in the crypto module, not under
`src/`.  Modelled from the spec (§6: "decryption of a wrong key yields
garbage, not an error"; §4.A): an unauthenticated, length-preserving
in-place stream decryption, taken as an arbitrary parameter `dec`
together with its length-preservation law.  `T::try_from(&[u8])` for the
fixed-size key/hash types fails exactly on a length mismatch, so the
expected length is a parameter. -/

/-- Errors of the metadata getters used here (`Error::EntryNotFound`,
`Error::MalformedData`). -/
inductive MetaError where
  | entryNotFound
  | malformedData
deriving DecidableEq, Repr

/-- The `metadata_secret` table: name ↦ (nonce, ciphertext). -/
abbrev SecretTable : Type := Nat → Option (Nat × List Nat)

/-- `get_secret_blob`: look the row up by name, decrypt the value with
the caller's local key and the stored nonce, and convert — there is no
authentication step, so the only failures are a missing row or a length
mismatch. -/
def getSecretBlob (dec : Nat → Nat → List Nat → List Nat)
    (table : SecretTable) (id : Nat) (localKey : Nat) (targetLen : Nat) :
    Except MetaError (List Nat) :=
  match table id with
  | none => .error .entryNotFound
  | some (nonce, value) =>
    let buffer := dec localKey nonce value
    if buffer.length = targetLen then .ok buffer else .error .malformedData

/-- Length of the stored signing/cipher keys and hashes (32 bytes). -/
def KEY_LEN : Nat := 32

/-- `get_write_key` (the `local_key = Some _` path): read the stored
write key (no fallback entry modelled under `DEPRECATED_ACCESS_KEY` —
the table lookup covers either name), derive the repository id from the
decrypted bytes (`RepositoryId::from(write_keys.public)`, abstracted as
the parameter `deriveId`) and compare with the repository's id; a
mismatch is reported as `EntryNotFound`, the same error as an absent
entry. -/
def getWriteKey (dec : Nat → Nat → List Nat → List Nat)
    (deriveId : List Nat → Nat) (table : SecretTable) (writeKeyName : Nat)
    (localKey : Nat) (repoId : Nat) : Except MetaError (List Nat) :=
  match getSecretBlob dec table writeKeyName localKey KEY_LEN with
  | .error e => .error e
  | .ok writeKey =>
    if deriveId writeKey = repoId then .ok writeKey
    else .error .entryNotFound

/-!
### Message send failover (`lib/src/network/message_dispatcher.rs`)

The `Send` future of `MultiSink` repeatedly takes the first sink of the
list: on success the send completes with `true`, on an I/O error the
sink is dropped with `Vec::swap_remove(0)` (the last sink moves into
slot 0) and the message is retried; with no sinks left it completes with
`false`.  `Poll::Pending` only suspends the attempt, so a sink is
modelled by whether it eventually accepts the frame (`true`) or fails
with an I/O error (`false`); the same loop shape appears as
`MultiWriter::write` in `src/network/message_broker.rs`. -/

/-- `Vec::swap_remove(0)`: remove index 0 and move the last element into
its place. -/
def swapRemoveHead {α : Type} : List α → List α
  | [] => []
  | [_] => []
  | _ :: b :: rest => (b :: rest).getLast (by simp) :: (b :: rest).dropLast

/-- The send attempt of `Send::poll` / `MultiWriter::write` over the
current sink list: returns whether some sink accepted the frame,
together with the remaining sinks. -/
def sendAttempt : List Bool → Bool × List Bool
  | [] => (false, [])
  | s :: rest =>
    if s then (true, s :: rest)
    else sendAttempt (swapRemoveHead (s :: rest))
termination_by sinks => sinks.length
decreasing_by
  cases rest with
  | nil => simp [swapRemoveHead]
  | cons b l =>
    simp [swapRemoveHead, List.length_dropLast]

/-- Invariant of the commit-ordering model: while the committer has not
finished (commit + closure), it holds the single permit, and a writer can
only have acquired the permit after the committer finished. -/
def DbInv (s : DbState) : Prop :=
  (s.committer ≠ .done → s.permitsFree = 0)
  ∧ (s.writer = .acquired → s.committer = .done)

/-- Cursor-position invariant of a blob handle: the position stays inside
the block buffer, sits past the header on the head block, and the seek
position never exceeds the logical length. -/
def CursorInv (b : Blob) : Prop :=
  b.currentBlock.content.pos ≤ BLOCK_SIZE
  ∧ (b.currentBlock.number = 0 → HEADER_SIZE ≤ b.currentBlock.content.pos)
  ∧ b.seekPosition ≤ b.len

instance (b : Blob) : Decidable (CursorInv b) := by
  unfold CursorInv
  infer_instance

/-!
## Theorems

Claim-level theorems, with the supporting lemmas they need.
-/

/-- `1 + (len + 31) / 4096` is the ceiling of `(len + 32) / 4096`. -/
theorem blockCount_ceil (len : Nat) :
    1 + (len + HEADER_SIZE - 1) / BLOCK_SIZE
      = (len + HEADER_SIZE + (BLOCK_SIZE - 1)) / BLOCK_SIZE := by
  show 1 + (len + 32 - 1) / 4096 = (len + 32 + 4095) / 4096
  have h : len + 32 + 4095 = (len + 31) + 4096 := by omega
  rw [h, Nat.add_div_right _ (by norm_num)]
  omega

/-- C2 (amended): `Core::block_count` computes
`ceil((L + H) / BLOCK_SIZE)` saturated at `u32::MAX`; in particular it
equals the spec's `ceil((L + H) / BLOCK_SIZE)` exactly when that ceiling
fits in a `u32`. -/
theorem core_blockCount_eq_min_spec (len : Nat) :
    Core.blockCount len = min (specBlockCount len) U32_MAX := by
  unfold Core.blockCount specBlockCount
  rw [blockCount_ceil]

/-- C2 (counterexample): at logical length `2^63` the computed block
count saturates at `u32::MAX` and differs from the spec's
`ceil((L + H) / BLOCK_SIZE)`. -/
theorem core_blockCount_ne_spec_at_large :
    Core.blockCount (2 ^ 63) ≠ specBlockCount (2 ^ 63) := by decide

/-- Looking up a member's key in a well-formed version vector returns its
value. -/
theorem VersionVector.get_of_mem :
    ∀ {v : VersionVector}, v.wf → ∀ {p : Nat × Nat}, p ∈ v → v.get p.1 = p.2 := by
  intro v
  induction v with
  | nil => intro _ p hp; cases hp
  | cons q rest ih =>
    intro hwf p hp
    have hwf' : (q.1 ∉ rest.map Prod.fst) ∧ VersionVector.wf rest := by
      unfold VersionVector.wf at hwf ⊢
      simpa [List.nodup_cons] using hwf
    rcases List.mem_cons.mp hp with rfl | hmem
    · simp [VersionVector.get, List.find?_cons]
    · have hq : ¬q.1 = p.1 := by
        intro he
        exact hwf'.1 (he ▸ List.mem_map_of_mem Prod.fst hmem)
      simpa [VersionVector.get, List.find?_cons, hq] using ih hwf'.2 hmem

/-- `le` is reflexive on well-formed version vectors. -/
theorem VersionVector.le_refl_of_wf {v : VersionVector} (h : v.wf) : v.le v :=
  fun p hp => (VersionVector.get_of_mem h hp).ge

/-- `same` is reflexive on entries with well-formed version vectors. -/
theorem EntryData.same_refl (e : EntryData) (h : e.versionVector.wf) :
    e.same e :=
  ⟨rfl, VersionVector.le_refl_of_wf h, VersionVector.le_refl_of_wf h⟩

/-- C4: fork idempotence over the destination entry.  `fork ; fork` has
the same outcome and final state as a single `fork`; a destination entry
equal to the source (same blob id and version vector) makes fork succeed
without changing anything; a different destination entry fails with
`EntryExists`.  The `wf` hypotheses say the version vector is a proper
map (no duplicate writer keys). -/
theorem fork_idempotent (src : EntryData) (dst : Option EntryData)
    (hwf : src.versionVector.wf) :
    ((forkEntry src dst).bind (forkEntry src) = forkEntry src dst)
    ∧ (∀ e : EntryData, e.same src → forkEntry src (some e) = .ok (some e))
    ∧ (∀ e : EntryData, ¬e.same src →
        forkEntry src (some e) = .error .entryExists) := by
  refine ⟨?_, ?_, ?_⟩
  · cases dst with
    | none =>
      simp [forkEntry, checkInsert, Except.bind, EntryData.same_refl src hwf]
    | some e =>
      by_cases h : e.same src
      · simp [forkEntry, checkInsert, Except.bind, h]
      · simp [forkEntry, checkInsert, Except.bind, h]
  · intro e h
    simp [forkEntry, checkInsert, h]
  · intro e h
    simp [forkEntry, checkInsert, h]

/-- C4 witness. -/
theorem fork_idempotent_witness :
    ((forkEntry ⟨1, [(7, 2)]⟩ none).bind (forkEntry ⟨1, [(7, 2)]⟩)
        = forkEntry ⟨1, [(7, 2)]⟩ none)
    ∧ forkEntry ⟨1, [(7, 2)]⟩ (some ⟨1, [(7, 2)]⟩) = .ok (some ⟨1, [(7, 2)]⟩)
    ∧ forkEntry ⟨1, [(7, 2)]⟩ (some ⟨2, [(7, 2)]⟩) = .error .entryExists := by
  obtain ⟨h1, h2, h3⟩ := fork_idempotent ⟨1, [(7, 2)]⟩ none (by decide)
  exact ⟨h1, h2 _ (by decide), h3 _ (by decide)⟩

theorem dbInv_of_reachable {s : DbState} (h : DbReachable s) : DbInv s := by
  induction h with
  | init => exact ⟨fun _ => rfl, fun h => by cases h⟩
  | @step s t hreach hstep ih =>
    obtain ⟨ih1, ih2⟩ := ih
    cases hstep with
    | commit hc =>
      refine ⟨fun _ => ih1 (by simp [hc]), fun hw => ?_⟩
      exact absurd (ih2 hw) (by simp [hc])
    | closureDone hc =>
      exact ⟨fun hnd => absurd rfl hnd, fun _ => rfl⟩
    | acquire hw hp =>
      have hdone : s.committer = .done := by
        by_contra hnd
        rw [ih1 hnd] at hp
        exact absurd hp (by omega)
      exact ⟨fun hnd => absurd hdone hnd, fun _ => hdone⟩
    | cancelCaller => exact ⟨ih1, ih2⟩

/-- C5: in every reachable interleaving of the commit-ordering model, a
subsequent `begin_write` can only hold the write permit after the
committer's spawned task has completed both the commit and the closure
`f` — i.e. `f` runs before any subsequent write transaction begins,
independently of the caller-cancellation flag. -/
theorem commit_and_then_before_next_write {s : DbState}
    (h : DbReachable s) (hw : s.writer = .acquired) : s.committer = .done :=
  (dbInv_of_reachable h).2 hw

/-- C5 witness: a reachable state with the next writer holding the
permit, in which the theorem applies. -/
theorem commit_and_then_before_next_write_witness :
    ∃ s : DbState, DbReachable s ∧ s.writer = .acquired ∧
      s.committer = .done := by
  refine ⟨{ committer := .done, writer := .acquired, permitsFree := 0,
            callerCancelled := false }, ?_, rfl, ?_⟩
  · exact DbReachable.step
      (DbReachable.step
        (DbReachable.step DbReachable.init (DbStep.commit _ rfl))
        (DbStep.closureDone _ rfl))
      (DbStep.acquire _ rfl (by norm_num))
  · exact commit_and_then_before_next_write
      (DbReachable.step
        (DbReachable.step
          (DbReachable.step DbReachable.init (DbStep.commit _ rfl))
          (DbStep.closureDone _ rfl))
        (DbStep.acquire _ rfl (by norm_num)))
      rfl

/-- C6: evaluation of `ContactSet::iter_for` exhibiting the inverted TCP
direction filter.  The contact set holds a global recipient (id 0, one
non-TCP global address) and one other peer (id 1) with two live global
TCP connections, one incoming (port 1) and one outgoing (port 2).  The
code advertises exactly the incoming-TCP address — the address that
cannot be dialed and that both the claim and the code's own comment
("Filter out incoming TCP contacts…") say is never advertised — while
suppressing the dialable outgoing-TCP address. -/
theorem pex_advertises_incoming_tcp :
    ContactSet.iterFor
        [(0, [{ addr := { isTcp := false, ipGlobal := true, port := 0 },
                dir := .outgoing }]),
         (1, [{ addr := { isTcp := true, ipGlobal := true, port := 1 },
                dir := .incoming },
              { addr := { isTcp := true, ipGlobal := true, port := 2 },
                dir := .outgoing }])] 0
      = [{ isTcp := true, ipGlobal := true, port := 1 }] := by
  rfl

/-- `mismatchStep` on a strictly higher version: update and emit. -/
theorem mismatchStep_lt {h v : Nat} (acc : List Nat) (hv : h < v) :
    mismatchStep (h, acc) v = (v, acc ++ [v]) := by
  simp [mismatchStep, onProtocolMismatch, hv]

/-- `mismatchStep` on a version not above the highest seen: no event. -/
theorem mismatchStep_ge {h v : Nat} (acc : List Nat) (hv : ¬h < v) :
    mismatchStep (h, acc) v = (h, acc) := by
  simp [mismatchStep, onProtocolMismatch, hv]

/-- Along any run, the emitted version list stays strictly increasing and
bounded by the current highest version (C7's core induction). -/
theorem mismatchEmits_aux (vs : List Nat) :
    ∀ (h : Nat) (acc : List Nat),
      acc.Chain' (· < ·) → (∀ x ∈ acc, x ≤ h) →
      (vs.foldl mismatchStep (h, acc)).2.Chain' (· < ·)
      ∧ ∀ x ∈ (vs.foldl mismatchStep (h, acc)).2,
          x ≤ (vs.foldl mismatchStep (h, acc)).1 := by
  induction vs with
  | nil => intro h acc h1 h2; exact ⟨h1, h2⟩
  | cons v rest ih =>
    intro h acc h1 h2
    simp only [List.foldl_cons]
    by_cases hv : h < v
    · rw [mismatchStep_lt acc hv]
      refine ih v (acc ++ [v]) ?_ ?_
      · refine List.Chain'.append h1 (List.chain'_singleton v) ?_
        intro x hx y hy
        have hx' : x ∈ acc := List.mem_of_mem_getLast? hx
        have hy' : v = y := by simpa using hy
        subst hy'
        exact lt_of_le_of_lt (h2 x hx') hv
      · intro x hx
        rcases List.mem_append.mp hx with hx | hx
        · exact le_of_lt (lt_of_le_of_lt (h2 x hx) hv)
        · simp only [List.mem_singleton] at hx
          omega
    · rw [mismatchStep_ge acc hv]
      exact ih h acc h1 h2

/-- A strictly increasing run of elevated versions emits every version
(C7's core induction, exact case). -/
theorem mismatchEmits_mono_aux (vs : List Nat) :
    ∀ (h : Nat) (acc : List Nat), List.Chain' (· < ·) (h :: vs) →
      (vs.foldl mismatchStep (h, acc)).2 = acc ++ vs := by
  induction vs with
  | nil => intro h acc _; simp
  | cons v rest ih =>
    intro h acc hch
    have hv : h < v := (List.chain'_cons.mp hch).1
    simp only [List.foldl_cons]
    rw [mismatchStep_lt acc hv, ih v (acc ++ [v]) (List.chain'_cons.mp hch).2]
    simp

/-- C7 (amended): a handshake that reads a strictly higher protocol
version aborts with `ProtocolMismatch(their_version)`; the
protocol-mismatch event is emitted exactly when the observed version
exceeds every previously seen one (so the emitted versions form a
strictly increasing sequence — no elevated version is ever emitted
twice), and over a strictly increasing run of elevated versions every
version is emitted exactly once. -/
theorem handshake_mismatch_events :
    (∀ (magic : List Nat) (thisV : Nat) (thatMagic : List Nat)
        (thatV rid : Nat),
      thatMagic = magic → thisV < thatV →
      performHandshake magic thisV thatMagic thatV rid
        = .error (.protocolVersionMismatch thatV))
    ∧ (∀ (ourV : Nat) (vs : List Nat),
        (mismatchEmits ourV vs).Chain' (· < ·))
    ∧ (∀ (ourV : Nat) (vs : List Nat), List.Chain' (· < ·) (ourV :: vs) →
        mismatchEmits ourV vs = vs) := by
  refine ⟨?_, ?_, ?_⟩
  · intro magic thisV thatMagic thatV rid hm hv
    subst hm
    simp [performHandshake, hv]
  · intro ourV vs
    exact (mismatchEmits_aux vs ourV [] List.chain'_nil (by simp)).1
  · intro ourV vs hch
    unfold mismatchEmits
    rw [mismatchEmits_mono_aux vs ourV [] hch]
    simp

/-- C7 witness. -/
theorem handshake_mismatch_events_witness :
    performHandshake [0, 1, 2, 3] 5 [0, 1, 2, 3] 6 42
        = .error (.protocolVersionMismatch 6)
    ∧ mismatchEmits 5 [6, 7] = [6, 7] := by
  obtain ⟨h1, -, h3⟩ := handshake_mismatch_events
  exact ⟨h1 [0, 1, 2, 3] 5 [0, 1, 2, 3] 6 42 rfl (by norm_num),
    h3 5 [6, 7] (by norm_num [List.chain'_cons, List.chain'_singleton])⟩

/-- C7 (counterexample): with our version 0 and the peer announcing
version 2 and then version 1, the elevated version 1 is seen but never
emitted — the event is not emitted "once per elevated version seen". -/
theorem mismatch_not_once_per_seen_version :
    ¬∀ v ∈ [2, 1], 0 < v → (mismatchEmits 0 [2, 1]).count v = 1 := by
  decide

/-- Dropping the head by `swap_remove(0)` preserves `any` of the tail. -/
theorem swapRemoveHead_any (s : Bool) (rest : List Bool) :
    (swapRemoveHead (s :: rest)).any id = rest.any id := by
  cases rest with
  | nil => rfl
  | cons b l =>
    show ((b :: l).getLast (by simp) :: (b :: l).dropLast).any id
        = (b :: l).any id
    conv_rhs => rw [← List.dropLast_append_getLast
      (l := b :: l) (by simp)]
    simp [List.any_append, List.any_cons, Bool.or_comm]

/-- C9: a send attempt succeeds exactly when some underlying stream
accepts the frame (in particular it returns `false` when no streams
remain), and when it fails every stream has been removed. -/
theorem sendAttempt_success_iff (sinks : List Bool) :
    ((sendAttempt sinks).1 = sinks.any id)
    ∧ ((sendAttempt sinks).1 = false → (sendAttempt sinks).2 = []) := by
  induction sinks using sendAttempt.induct with
  | case1 => simp [sendAttempt]
  | case2 rest =>
    unfold sendAttempt
    simp
  | case3 s rest hs ih =>
    unfold sendAttempt
    rw [if_neg hs]
    obtain ⟨ih1, ih2⟩ := ih
    refine ⟨?_, ih2⟩
    rw [ih1, swapRemoveHead_any]
    have hs' : s = false := by
      cases s
      · rfl
      · exact absurd rfl hs
    simp [hs']

/-- C8: a stored encrypted metadata entry decrypts without error under
every key (a wrong key yields garbage bytes, never an authentication
failure), and a wrong local key makes `get_write_key` fail with exactly
the `EntryNotFound` error produced when the entry is absent, so the two
are indistinguishable. -/
theorem metadata_wrong_key_deniability :
    (∀ (dec : Nat → Nat → List Nat → List Nat) (table : SecretTable)
        (id key nonce : Nat) (value : List Nat),
      (∀ k no b, (dec k no b).length = b.length) →
      table id = some (nonce, value) → value.length = KEY_LEN →
      getSecretBlob dec table id key KEY_LEN = .ok (dec key nonce value))
    ∧ (∀ (dec : Nat → Nat → List Nat → List Nat)
        (deriveId : List Nat → Nat) (table : SecretTable)
        (name key nonce repoId : Nat) (value : List Nat),
      (∀ k no b, (dec k no b).length = b.length) →
      table name = some (nonce, value) → value.length = KEY_LEN →
      deriveId (dec key nonce value) ≠ repoId →
      getWriteKey dec deriveId table name key repoId
          = .error .entryNotFound
      ∧ getWriteKey dec deriveId (fun _ => none) name key repoId
          = .error .entryNotFound) := by
  constructor
  · intro dec table id key nonce value hlen htab hval
    unfold getSecretBlob
    rw [htab]
    simp [hlen, hval]
  · intro dec deriveId table name key nonce repoId value hlen htab hval hid
    constructor
    · unfold getWriteKey getSecretBlob
      rw [htab]
      simp [hlen, hval, hid]
    · unfold getWriteKey getSecretBlob
      rfl

/-- C8 witness. -/
theorem metadata_wrong_key_deniability_witness :
    (∃ v, getSecretBlob (fun k no b => b.map (fun x => x + k + no))
        (fun i => if i = 0 then some (5, List.replicate KEY_LEN 1) else none)
        0 3 KEY_LEN = .ok v)
    ∧ getWriteKey (fun k no b => b.map (fun x => x + k + no))
        (fun _ => 0)
        (fun i => if i = 0 then some (5, List.replicate KEY_LEN 1) else none)
        0 3 99 = .error .entryNotFound
    ∧ getWriteKey (fun k no b => b.map (fun x => x + k + no))
        (fun _ => 0) (fun _ => none) 0 3 99 = .error .entryNotFound := by
  obtain ⟨h1, h2⟩ := metadata_wrong_key_deniability
  refine ⟨⟨_, h1 _ _ 0 3 5 (List.replicate KEY_LEN 1)
      (by simp) (by simp) (by simp)⟩, ?_, ?_⟩
  · exact (h2 _ _ _ 0 3 5 99 (List.replicate KEY_LEN 1)
      (by simp) (by simp) (by simp) (by norm_num)).1
  · exact (h2 _ _ (fun i => if i = 0
        then some (5, List.replicate KEY_LEN 1) else none)
      0 3 5 99 (List.replicate KEY_LEN 1)
      (by simp) (by simp) (by simp) (by norm_num)).2

/-- `write_len` leaves length, block number, cursor position and store
membership of the current block untouched. -/
theorem writeLen_effects {b b' : Blob} (h : b.writeLen = .ok b') :
    b'.len = b.len ∧ b'.currentBlock.number = b.currentBlock.number ∧
      b'.currentBlock.content.pos = b.currentBlock.content.pos := by
  unfold Blob.writeLen at h
  by_cases h1 : b.lenDirty = false
  · rw [if_pos h1] at h
    cases h
    exact ⟨rfl, rfl, rfl⟩
  · rw [if_neg h1] at h
    by_cases h2 : b.currentBlock.number = 0
    · rw [if_pos h2] at h
      cases h
      refine ⟨rfl, rfl, ?_⟩
      simp [Cursor.writeU64, Cursor.write]
    · rw [if_neg h2] at h
      cases hs : b.store 0 with
      | none => rw [hs] at h; cases h
      | some f0 =>
        rw [hs] at h
        cases h
        exact ⟨rfl, rfl, rfl⟩

/-- `flush_in` leaves length, block number and cursor position
untouched. -/
theorem flushIn_effects {b b' : Blob} (h : b.flushIn = .ok b') :
    b'.len = b.len ∧ b'.currentBlock.number = b.currentBlock.number ∧
      b'.currentBlock.content.pos = b.currentBlock.content.pos := by
  unfold Blob.flushIn at h
  by_cases h1 : b.currentBlock.dirty = false
  · rw [if_pos h1] at h
    cases h
    exact ⟨rfl, rfl, rfl⟩
  · rw [if_neg h1] at h
    cases hw : b.writeLen with
    | error e => rw [hw] at h; cases h
    | ok bw =>
      rw [hw] at h
      cases h
      obtain ⟨e1, e2, e3⟩ := writeLen_effects hw
      exact ⟨e1, e2, e3⟩

/-- Effect of `replace_current_block` on the fields the invariants
track. -/
theorem replaceCurrentBlock_effects {b : Blob} {n : Nat} {f : Buf}
    {b' : Blob} (h : b.replaceCurrentBlock n f = .ok b') :
    b'.len = b.len ∧ b'.currentBlock.number = n ∧
      b'.currentBlock.content.pos = (if n = 0 then HEADER_SIZE else 0) ∧
      b'.currentBlock.content.buffer = f ∧
      b'.currentBlock.dirty = false := by
  unfold Blob.replaceCurrentBlock at h
  cases hf : b.flushIn with
  | error e => rw [hf] at h; cases h
  | ok bf =>
    rw [hf] at h
    cases h
    exact ⟨(flushIn_effects hf).1, rfl, rfl, rfl, rfl⟩

/-- The invariant holds after `replace_current_block` onto a block that
exists per `block_count` (the `number < block_count` branches of read
and write). -/
theorem cursorInv_replace_within {b : Blob} {f : Buf} {b' : Blob}
    (hinv : CursorInv b)
    (hlt : b.currentBlock.number + 1 < b.blockCount)
    (h : b.replaceCurrentBlock (b.currentBlock.number + 1) f = .ok b') :
    CursorInv b' := by
  obtain ⟨hlen, hnum, hpos, -, -⟩ := replaceCurrentBlock_effects h
  obtain ⟨h1, h2, h3⟩ := hinv
  have e3 : b'.currentBlock.content.pos = 0 := by simpa using hpos
  refine ⟨?_, ?_, ?_⟩
  · rw [e3]; exact Nat.zero_le _
  · intro h0
    rw [hnum] at h0
    cases h0
  · show b'.currentBlock.number * BLOCK_SIZE + b'.currentBlock.content.pos
        - HEADER_SIZE ≤ b'.len
    rw [hlen, hnum, e3]
    have hlt' : b.currentBlock.number + 1
        < min (1 + (b.len + HEADER_SIZE - 1) / BLOCK_SIZE) U32_MAX := hlt
    have hB : BLOCK_SIZE = 4096 := rfl
    have hH : HEADER_SIZE = 32 := rfl
    have hU : U32_MAX = 4294967295 := rfl
    rw [hB, hH]
    rw [hB, hH, hU] at hlt'
    omega

/-- Cursor position after a read. -/
theorem Cursor.read_snd_pos (c : Cursor) (n : Nat) :
    (c.read n).2.pos = c.pos + min (BLOCK_SIZE - c.pos) n := rfl

/-- Number of bytes a cursor read returns. -/
theorem Cursor.read_fst_length (c : Cursor) (n : Nat) :
    ((c.read n).1).length = min (BLOCK_SIZE - c.pos) n := by
  simp [Cursor.read]

/-- `Blob::read` preserves the cursor invariant (measure-indexed
induction over the loop). -/
theorem readLoop_inv_aux (m : Nat) :
    ∀ (b : Blob) (want : Nat) (r : List Nat × Blob),
      b.blockCount - b.currentBlock.number ≤ m →
      CursorInv b → b.readLoop want = .ok r → CursorInv r.2 := by
  induction m using Nat.strong_induction_on with
  | _ m ih =>
    intro b want r hm hinv h
    obtain ⟨h1, h2, h3⟩ := hinv
    have hB : BLOCK_SIZE = 4096 := rfl
    have hH : HEADER_SIZE = 32 := rfl
    have hS : b.seekPosition
        = b.currentBlock.number * 4096 + b.currentBlock.content.pos - 32 := rfl
    unfold Blob.readLoop at h
    simp only [] at h
    set K := want ⊓ (b.len - b.seekPosition) with hK
    set c2 := (b.currentBlock.content.read K).2 with hc2def
    set bs := (b.currentBlock.content.read K).1 with hbs
    set b1 : Blob :=
      { store := b.store,
        currentBlock :=
          { number := b.currentBlock.number, content := c2,
            dirty := b.currentBlock.dirty },
        len := b.len, lenDirty := b.lenDirty } with hb1def
    have hc2pos : c2.pos = b.currentBlock.content.pos
        + min (BLOCK_SIZE - b.currentBlock.content.pos) K := rfl
    have hb1inv : CursorInv b1 := by
      refine ⟨?_, ?_, ?_⟩
      · show c2.pos ≤ BLOCK_SIZE
        rw [hc2pos, hB]
        rw [hB] at h1
        omega
      · intro h0
        replace h0 : b.currentBlock.number = 0 := h0
        have h2' := h2 h0
        show HEADER_SIZE ≤ c2.pos
        rw [hc2pos, hH]
        rw [hH] at h2'
        omega
      · show b.currentBlock.number * BLOCK_SIZE + c2.pos - HEADER_SIZE ≤ b.len
        have hKle : K ≤ b.len - b.seekPosition := by
          rw [hK]
          exact Nat.min_le_right _ _
        have h2' := h2
        rw [hc2pos, hB, hH]
        rw [hB] at h1
        rw [hS] at h3 hKle
        rw [hH] at h2'
        omega
    split at h
    next hw0 =>
      cases h
      exact hb1inv
    next hw0 =>
      split at h
      next hn0 =>
        cases h
        exact hb1inv
      next hn0 =>
        cases hstore : b1.store (b.currentBlock.number + 1) with
        | none => rw [hstore] at h; cases h
        | some f =>
          rw [hstore] at h
          simp only [] at h
          split at h
          next e heq => cases h
          next b2 heq =>
            split at h
            next e2 heq2 => cases h
            next rest b3 heq2 =>
              cases h
              have hnum1 : b1.currentBlock.number = b.currentBlock.number := rfl
              have hlt : b1.currentBlock.number + 1 < b1.blockCount := by
                rw [hnum1]
                omega
              have hinv2 : CursorInv b2 :=
                cursorInv_replace_within hb1inv hlt heq
              obtain ⟨e1, e2, -, -, -⟩ := replaceCurrentBlock_effects heq
              have hbc1 : b1.blockCount = b.blockCount := rfl
              have hbc2 : b2.blockCount = b.blockCount := by
                simp only [Blob.blockCount, e1]
              have hmlt : b2.blockCount - b2.currentBlock.number < m := by
                rw [hbc2, e2, hnum1]
                rw [hbc1, hnum1] at hlt
                omega
              exact ih (b2.blockCount - b2.currentBlock.number) hmlt b2
                (want - bs.length) (rest, b3) (Nat.le_refl _) hinv2 heq2

/-- Cursor position after a write. -/
theorem Cursor.write_snd_pos (c : Cursor) (s : List Nat) :
    (c.write s).2.pos = c.pos + min (BLOCK_SIZE - c.pos) s.length := rfl

/-- Number of bytes a cursor write consumes. -/
theorem Cursor.write_fst (c : Cursor) (s : List Nat) :
    (c.write s).1 = min (BLOCK_SIZE - c.pos) s.length := rfl

/-- The invariant also holds after `replace_current_block` onto the next
block when the cursor sits at the end of a full block (the fresh-block
branch of `write`). -/
theorem cursorInv_replace_at_end {b : Blob} {f : Buf} {b' : Blob}
    (hinv : CursorInv b)
    (hpos : b.currentBlock.content.pos = BLOCK_SIZE)
    (h : b.replaceCurrentBlock (b.currentBlock.number + 1) f = .ok b') :
    CursorInv b' := by
  obtain ⟨hlen, hnum, hpos', -, -⟩ := replaceCurrentBlock_effects h
  obtain ⟨h1, h2, h3⟩ := hinv
  have e3 : b'.currentBlock.content.pos = 0 := by simpa using hpos'
  refine ⟨?_, ?_, ?_⟩
  · rw [e3]; exact Nat.zero_le _
  · intro h0
    rw [hnum] at h0
    cases h0
  · show b'.currentBlock.number * BLOCK_SIZE + b'.currentBlock.content.pos
        - HEADER_SIZE ≤ b'.len
    rw [hlen, hnum, e3]
    have hs : b.seekPosition = b.currentBlock.number * 4096
        + b.currentBlock.content.pos - 32 := rfl
    have hB : BLOCK_SIZE = 4096 := rfl
    have hH : HEADER_SIZE = 32 := rfl
    rw [hB, hH]
    rw [hs] at h3
    rw [hB] at hpos
    omega

set_option maxHeartbeats 1000000 in
/-- `Blob::write` preserves the cursor invariant. -/
theorem writeLoop_inv_aux (m : Nat) :
    ∀ (b : Blob) (src : List Nat) (b' : Blob),
      2 * src.length
        + (if b.currentBlock.content.pos < BLOCK_SIZE then 0 else 1) ≤ m →
      CursorInv b → b.writeLoop src = .ok b' → CursorInv b' := by
  induction m using Nat.strong_induction_on with
  | _ m ih =>
    intro b src b' hm hinv h
    obtain ⟨h1, h2, h3⟩ := hinv
    have hB : BLOCK_SIZE = 4096 := rfl
    have hH : HEADER_SIZE = 32 := rfl
    have hS : b.seekPosition
        = b.currentBlock.number * 4096 + b.currentBlock.content.pos - 32 := rfl
    unfold Blob.writeLoop at h
    simp only [] at h
    set N := (b.currentBlock.content.write src).1 with hN
    set c2 := (b.currentBlock.content.write src).2 with hc2def
    set b1 : Blob :=
      { store := b.store,
        currentBlock :=
          { number := b.currentBlock.number, content := c2,
            dirty := if 0 < N then true else b.currentBlock.dirty },
        len := b.len, lenDirty := b.lenDirty } with hb1def
    have hc2pos : c2.pos = b.currentBlock.content.pos
        + min (BLOCK_SIZE - b.currentBlock.content.pos) src.length := rfl
    have hNeq : N = min (BLOCK_SIZE - b.currentBlock.content.pos) src.length :=
      rfl
    set b2 : Blob := if b1.len + HEADER_SIZE
          < b1.currentBlock.number * BLOCK_SIZE + b1.currentBlock.content.pos
        then
        { store := b1.store, currentBlock := b1.currentBlock,
          len := b1.seekPosition, lenDirty := true }
      else b1 with hb2def
    have hs1 : b1.seekPosition = b.currentBlock.number * 4096 + c2.pos - 32 :=
      rfl
    have hb2num : b2.currentBlock.number = b.currentBlock.number := by
      rw [hb2def]
      split <;> rfl
    have hb2pos : b2.currentBlock.content.pos = c2.pos := by
      rw [hb2def]
      split <;> rfl
    have hb1len : b1.len = b.len := rfl
    have hb1num : b1.currentBlock.number = b.currentBlock.number := rfl
    have hb1pos : b1.currentBlock.content.pos = c2.pos := rfl
    have hb2seek : b2.seekPosition = b1.seekPosition := by
      unfold Blob.seekPosition
      rw [hb2num, hb2pos]
    have hb2len : b2.len = max b.len b1.seekPosition := by
      rw [hb2def]
      split
      next hx =>
        show b1.seekPosition = max b.len b1.seekPosition
        rw [hs1]
        rw [hb1len, hb1num, hb1pos, hH, hB] at hx
        omega
      next hx =>
        show b.len = max b.len b1.seekPosition
        rw [hs1]
        rw [hb1len, hb1num, hb1pos, hH, hB] at hx
        omega
    have hb2inv : CursorInv b2 := by
      refine ⟨?_, ?_, ?_⟩
      · rw [hb2pos, hc2pos, hB]
        rw [hB] at h1
        omega
      · intro h0
        rw [hb2num] at h0
        have h2' := h2 h0
        rw [hb2pos, hc2pos, hH]
        rw [hH] at h2'
        omega
      · rw [hb2seek, hb2len]
        exact Nat.le_max_right _ _
    split at h
    next hz =>
      obtain rfl := Except.ok.inj h
      exact hb2inv
    next hz =>
      split at h
      next f heq => cases h
      next f heq =>
        split at h
        next e heq2 => cases h
        next b3 heq2 =>
          -- the recursive call: `heq2` replaces onto block number+1,
          -- `h` is the recursive write on the rest of the source
          have hpos2cases : b2.currentBlock.content.pos = BLOCK_SIZE
              ∨ b2.currentBlock.number + 1 < b2.blockCount := by
            by_cases hx : b2.currentBlock.number + 1 < b2.blockCount
            · exact Or.inr hx
            · left
              rw [if_neg hx] at heq
              cases heq
              have hdrop : src.length - N ≠ 0 := by
                intro hc
                exact hz (List.drop_eq_nil_of_le (by omega))
              rw [hb2pos, hc2pos, hB]
              rw [hNeq, hB] at hdrop
              rw [hB] at h1
              omega
          have hinv3 : CursorInv b3 := by
            rcases hpos2cases with hend | hlt
            · exact cursorInv_replace_at_end hb2inv hend heq2
            · exact cursorInv_replace_within hb2inv hlt heq2
          obtain ⟨e1, e2, e3, -, -⟩ := replaceCurrentBlock_effects heq2
          have he3 : b3.currentBlock.content.pos = 0 := by simpa using e3
          have hdropN : src.length - N ≠ 0 := by
            intro hc
            exact hz (List.drop_eq_nil_of_le (by omega))
          have hmlt : 2 * (src.drop N).length
              + (if b3.currentBlock.content.pos < BLOCK_SIZE then 0 else 1)
              < m := by
            rw [he3, List.length_drop]
            rw [if_pos (by rw [hB]; omega)]
            rw [hNeq] at hdropN ⊢
            by_cases hN0 : min (BLOCK_SIZE - b.currentBlock.content.pos)
                src.length = 0
            · have hge : BLOCK_SIZE ≤ b.currentBlock.content.pos := by
                rw [hB] at *
                omega
              rw [if_neg (by omega)] at hm
              omega
            · rcases Nat.lt_or_ge b.currentBlock.content.pos BLOCK_SIZE with
                hx | hx
              · rw [if_pos hx] at hm
                omega
              · rw [if_neg (by omega)] at hm
                omega
          exact ih _ hmlt b3 (src.drop N) b' (Nat.le_refl _) hinv3 h

/-- The common tail of `Blob::seek`: position the cursor at a clamped
offset (the block/offset decomposition of `offset + header_size`),
loading the target block when it is not current. -/
theorem seek_tail {b : Blob} {off : Nat} {r : Nat × Blob}
    (hle : off ≤ b.len)
    (h : (if (off + HEADER_SIZE) / BLOCK_SIZE = b.currentBlock.number then
            Except.ok (off,
              { b with currentBlock := { b.currentBlock with
                  content := { b.currentBlock.content with
                    pos := (off + HEADER_SIZE) % BLOCK_SIZE } } })
          else
            match b.store ((off + HEADER_SIZE) / BLOCK_SIZE) with
            | none => Except.error BlobError.blockNotFound
            | some f =>
              match b.replaceCurrentBlock ((off + HEADER_SIZE) / BLOCK_SIZE) f
                  with
              | .error e => Except.error e
              | .ok b2 =>
                Except.ok (off,
                  { b2 with currentBlock := { b2.currentBlock with
                      content := { b2.currentBlock.content with
                        pos := (off + HEADER_SIZE) % BLOCK_SIZE } } }))
        = .ok r) :
    CursorInv r.2 ∧ r.1 ≤ b.len ∧ r.2.seekPosition = r.1 ∧ r.2.len = b.len := by
  have hB : BLOCK_SIZE = 4096 := rfl
  have hH : HEADER_SIZE = 32 := rfl
  by_cases hbn : (off + HEADER_SIZE) / BLOCK_SIZE = b.currentBlock.number
  · rw [if_pos hbn] at h
    cases h
    refine ⟨⟨?_, ?_, ?_⟩, hle, ?_, rfl⟩
    · show (off + HEADER_SIZE) % BLOCK_SIZE ≤ BLOCK_SIZE
      rw [hB]
      omega
    · intro h0
      replace h0 : b.currentBlock.number = 0 := h0
      rw [h0] at hbn
      show HEADER_SIZE ≤ (off + HEADER_SIZE) % BLOCK_SIZE
      rw [hB, hH] at *
      omega
    · show b.currentBlock.number * BLOCK_SIZE
          + (off + HEADER_SIZE) % BLOCK_SIZE - HEADER_SIZE ≤ b.len
      rw [← hbn]
      rw [hB, hH] at *
      omega
    · show b.currentBlock.number * BLOCK_SIZE
          + (off + HEADER_SIZE) % BLOCK_SIZE - HEADER_SIZE = off
      rw [← hbn]
      rw [hB, hH] at *
      omega
  · rw [if_neg hbn] at h
    cases hst : b.store ((off + HEADER_SIZE) / BLOCK_SIZE) with
    | none => rw [hst] at h; cases h
    | some f =>
      rw [hst] at h
      simp only [] at h
      cases hrep : b.replaceCurrentBlock ((off + HEADER_SIZE) / BLOCK_SIZE) f
          with
      | error e => rw [hrep] at h; cases h
      | ok b2 =>
        rw [hrep] at h
        cases h
        obtain ⟨e1, e2, -, -, -⟩ := replaceCurrentBlock_effects hrep
        refine ⟨⟨?_, ?_, ?_⟩, hle, ?_, e1⟩
        · show (off + HEADER_SIZE) % BLOCK_SIZE ≤ BLOCK_SIZE
          rw [hB]
          omega
        · intro h0
          replace h0 : b2.currentBlock.number = 0 := h0
          rw [e2] at h0
          show HEADER_SIZE ≤ (off + HEADER_SIZE) % BLOCK_SIZE
          rw [hB, hH] at *
          omega
        · show b2.currentBlock.number * BLOCK_SIZE
              + (off + HEADER_SIZE) % BLOCK_SIZE - HEADER_SIZE ≤ b2.len
          rw [e1, e2]
          rw [hB, hH] at *
          omega
        · show b2.currentBlock.number * BLOCK_SIZE
              + (off + HEADER_SIZE) % BLOCK_SIZE - HEADER_SIZE = off
          rw [e2]
          rw [hB, hH] at *
          omega

/-- `Blob::seek` clamps the offset to `[0, len]`, lands the cursor
exactly there, and preserves the cursor invariant. -/
theorem seek_inv {b : Blob} {p : Blob.SeekFrom} {r : Nat × Blob}
    (hinv : CursorInv b) (h : b.seek p = .ok r) :
    CursorInv r.2 ∧ r.1 ≤ b.len ∧ r.2.seekPosition = r.1 ∧ r.2.len = b.len := by
  obtain ⟨h1, h2, h3⟩ := hinv
  unfold Blob.seek at h
  cases p with
  | start n =>
    simp only [] at h
    exact seek_tail (Nat.min_le_right n b.len) h
  | fromEnd n =>
    simp only [] at h
    refine seek_tail ?_ h
    split <;> omega
  | current n =>
    simp only [] at h
    refine seek_tail ?_ h
    split
    · exact Nat.min_le_right _ _
    · omega

/-- `Blob::create` establishes the cursor invariant. -/
theorem create_inv (store : Store) : CursorInv (Blob.create store) := by
  have hp : (Blob.create store).currentBlock.content.pos = 32 := rfl
  have hn : (Blob.create store).currentBlock.number = 0 := rfl
  have hl : (Blob.create store).len = 0 := rfl
  refine ⟨?_, fun _ => ?_, ?_⟩
  · rw [hp]
    decide
  · rw [hp]
    decide
  · unfold Blob.seekPosition
    rw [hp, hn, hl]
    decide

/-- `Blob::open` establishes the cursor invariant. -/
theorem openBlob_inv {store : Store} {b : Blob}
    (h : Blob.openBlob store = .ok b) : CursorInv b := by
  unfold Blob.openBlob at h
  cases hst : store 0 with
  | none => rw [hst] at h; cases h
  | some f =>
    rw [hst] at h
    simp only [] at h
    cases h
    refine ⟨?_, fun _ => ?_, ?_⟩
    · show NONCE_PREFIX_SIZE + 8 ≤ BLOCK_SIZE
      decide
    · show HEADER_SIZE ≤ NONCE_PREFIX_SIZE + 8
      decide
    · unfold Blob.seekPosition
      have hz : 0 * BLOCK_SIZE + (NONCE_PREFIX_SIZE + 8) - HEADER_SIZE = 0 := by
        decide
      show 0 * BLOCK_SIZE + (NONCE_PREFIX_SIZE + 8) - HEADER_SIZE ≤ _
      rw [hz]
      exact Nat.zero_le _

/-- `replace_current_block` succeeds whenever the head block is in the
store (the only fallible step is `write_len`'s read-modify-write of the
head block). -/
theorem replaceCurrentBlock_ok (b : Blob) (n : Nat) (f : Buf)
    (h0 : (b.store 0).isSome) :
    ∃ b', b.replaceCurrentBlock n f = .ok b' := by
  unfold Blob.replaceCurrentBlock Blob.flushIn Blob.writeLen
  by_cases h1 : b.currentBlock.dirty = false
  · rw [if_pos h1]
    exact ⟨_, rfl⟩
  · rw [if_neg h1]
    by_cases h2 : b.lenDirty = false
    · rw [if_pos h2]
      exact ⟨_, rfl⟩
    · rw [if_neg h2]
      by_cases h3 : b.currentBlock.number = 0
      · rw [if_pos h3]
        exact ⟨_, rfl⟩
      · rw [if_neg h3]
        cases hs : b.store 0 with
        | none => rw [hs] at h0; cases h0
        | some f0 => exact ⟨_, rfl⟩

/-- `replace_current_block` only adds blocks to the store. -/
theorem replaceCurrentBlock_store_isSome {b : Blob} {n : Nat} {f : Buf}
    {b' : Blob} (h : b.replaceCurrentBlock n f = .ok b') :
    ∀ k, (b.store k).isSome → (b'.store k).isSome := by
  intro k hk
  unfold Blob.replaceCurrentBlock Blob.flushIn Blob.writeLen at h
  by_cases h1 : b.currentBlock.dirty = false
  · rw [if_pos h1] at h
    cases h
    exact hk
  · rw [if_neg h1] at h
    by_cases h2 : b.lenDirty = false
    · rw [if_pos h2] at h
      cases h
      show (b.store.set _ _ k).isSome
      unfold Store.set
      split <;> simp [hk]
    · rw [if_neg h2] at h
      by_cases h3 : b.currentBlock.number = 0
      · rw [if_pos h3] at h
        cases h
        show (b.store.set _ _ k).isSome
        unfold Store.set
        split <;> simp [hk]
      · rw [if_neg h3] at h
        cases hs : b.store 0 with
        | none => rw [hs] at h; cases h
        | some f0 =>
          rw [hs] at h
          cases h
          show (((b.store.set 0 _).set _ _) k).isSome
          unfold Store.set
          split
          · simp
          · split <;> simp [hk]

/-- `Blob::read` on a blob whose blocks are all present returns exactly
`min want (len - seek_position)` bytes (measure-indexed induction). -/
theorem readLoop_len_aux (m : Nat) :
    ∀ (b : Blob) (want : Nat),
      b.blockCount - b.currentBlock.number ≤ m →
      CursorInv b →
      b.len + HEADER_SIZE ≤ (U32_MAX - 1) * BLOCK_SIZE →
      (∀ blk, blk < b.blockCount → (b.store blk).isSome) →
      ∃ bytes b2, b.readLoop want = .ok (bytes, b2)
        ∧ bytes.length = min want (b.len - b.seekPosition) := by
  induction m using Nat.strong_induction_on with
  | _ m ih =>
    intro b want hm hinv hsmall hready
    obtain ⟨h1, h2, h3⟩ := hinv
    have hB : BLOCK_SIZE = 4096 := rfl
    have hH : HEADER_SIZE = 32 := rfl
    have hS : b.seekPosition
        = b.currentBlock.number * 4096 + b.currentBlock.content.pos - 32 := rfl
    have hbc : b.blockCount
        = min (1 + (b.len + 32 - 1) / 4096) 4294967295 := rfl
    have hsmall' : b.len + 32 ≤ 4294967294 * 4096 := hsmall
    unfold Blob.readLoop
    simp only []
    set K := want ⊓ (b.len - b.seekPosition) with hK
    set c2 := (b.currentBlock.content.read K).2 with hc2def
    set bs := (b.currentBlock.content.read K).1 with hbs
    set b1 : Blob :=
      { store := b.store,
        currentBlock :=
          { number := b.currentBlock.number, content := c2,
            dirty := b.currentBlock.dirty },
        len := b.len, lenDirty := b.lenDirty } with hb1def
    have hbsl : bs.length = min (BLOCK_SIZE - b.currentBlock.content.pos) K := by
      rw [hbs]
      exact Cursor.read_fst_length _ _
    by_cases hw0 : want - bs.length = 0
    · rw [dif_pos hw0]
      refine ⟨bs, b1, rfl, ?_⟩
      rw [hbsl, hK]
      rw [hB] at *
      omega
    · rw [dif_neg hw0]
      by_cases hn0 : b1.blockCount ≤ b1.currentBlock.number + 1
      · rw [dif_pos hn0]
        refine ⟨bs, b1, rfl, ?_⟩
        have hn0' : min (1 + (b.len + 32 - 1) / 4096) 4294967295
            ≤ b.currentBlock.number + 1 := hn0
        rw [hbsl, hK]
        rw [hS] at *
        rw [hB, hH] at *
        omega
      · rw [dif_neg hn0]
        have hn0' : ¬ min (1 + (b.len + 32 - 1) / 4096) 4294967295
            ≤ b.currentBlock.number + 1 := hn0
        have hs0 : (b1.store (b.currentBlock.number + 1)).isSome := by
          show (b.store (b.currentBlock.number + 1)).isSome
          refine hready _ ?_
          rw [hbc]
          omega
        obtain ⟨f, hf⟩ := Option.isSome_iff_exists.mp hs0
        rw [hf]
        simp only []
        have hs00 : (b1.store 0).isSome := by
          show (b.store 0).isSome
          refine hready _ ?_
          rw [hbc]
          omega
        obtain ⟨b2, hrep⟩ :=
          replaceCurrentBlock_ok b1 (b.currentBlock.number + 1) f hs00
        rw [hrep]
        have hlt : b1.currentBlock.number + 1 < b1.blockCount := by omega
        have hc2pos : c2.pos = b.currentBlock.content.pos
            + min (BLOCK_SIZE - b.currentBlock.content.pos) K := rfl
        have hb1inv : CursorInv b1 := by
          refine ⟨?_, ?_, ?_⟩
          · show c2.pos ≤ BLOCK_SIZE
            rw [hc2pos, hB]
            rw [hB] at h1
            omega
          · intro h0
            replace h0 : b.currentBlock.number = 0 := h0
            have h2' := h2 h0
            show HEADER_SIZE ≤ c2.pos
            rw [hc2pos, hH]
            rw [hH] at h2'
            omega
          · show b.currentBlock.number * BLOCK_SIZE + c2.pos - HEADER_SIZE
                ≤ b.len
            have hKle : K ≤ b.len - b.seekPosition := by
              rw [hK]
              exact Nat.min_le_right _ _
            have h2' := h2
            rw [hc2pos, hB, hH]
            rw [hB] at h1
            rw [hS] at h3 hKle
            rw [hH] at h2'
            omega
        have hinv2 : CursorInv b2 := cursorInv_replace_within hb1inv hlt hrep
        obtain ⟨e1, e2, e3, -, -⟩ := replaceCurrentBlock_effects hrep
        have he3 : b2.currentBlock.content.pos = 0 := by simpa using e3
        have hbc2 : b2.blockCount = b.blockCount := by
          simp only [Blob.blockCount, e1]
        have hmlt : b2.blockCount - b2.currentBlock.number < m := by
          rw [hbc2, e2]
          rw [hbc] at hm ⊢
          omega
        obtain ⟨rest, b3, hrec, hrlen⟩ :=
          ih _ hmlt b2 (want - bs.length) (Nat.le_refl _) hinv2
            (by rw [e1]; exact hsmall)
            (by
              intro blk hblk
              refine replaceCurrentBlock_store_isSome hrep blk ?_
              show (b.store blk).isSome
              refine hready blk ?_
              rw [← hbc2]
              exact hblk)
        refine ⟨bs ++ rest, b3, ?_, ?_⟩
        · simp only []
          split
          next e heq =>
            rw [hrec] at heq
            cases heq
          next restx b3x heq =>
            rw [hrec] at heq
            cases heq
            rfl
        · have hb2len : b2.len = b.len := e1
          have hseek2 : b2.seekPosition
              = (b.currentBlock.number + 1) * 4096 + 0 - 32 := by
            show b2.currentBlock.number * BLOCK_SIZE
                + b2.currentBlock.content.pos - HEADER_SIZE = _
            rw [e2, he3, hB, hH]
          rw [List.length_append, hrlen, hbsl, hb2len, hseek2, hK, hS, hB]
          rw [hS] at h3
          rw [hB] at h1
          rw [hH] at h2
          omega

end Ouisync
